import Mathlib

/-!
# Shallow embedding of the semantic-wormholes similarity-graph engine

This file embeds `src/wormhole-engine.ts` (class `WormholeEngine`) in Lean 4
and proves properties of the embedded program.

Modelling conventions:
* JavaScript numbers are modelled as real numbers (`ℝ`).  The engine's own
  arithmetic never divides by zero on the paths the theorems below talk
  about (cosine similarity guards both norms, and the energy formula is
  only stored for admitted connections whose similarity exceeds `0.7`), so
  Mathlib's total division is faithful there.  The one place where the
  source *does* divide by zero — `harmonicResonance` — is additionally
  modelled with an explicit IEEE-style value type `JSNum` (carrying
  `Infinity`/`-Infinity`/`NaN`) so that the float behaviour at zero
  denominators can be stated exactly.
* `Map<string, T>` is modelled as an association list in insertion order;
  `Map.prototype.set` on an existing key updates the entry in place
  (keeping its original iteration position), matching JavaScript.
* The external collaborator `ProteinHasher.computeHash` is a parameter
  `hasher : String → Except ε HashResult`; a thrown exception is the
  `Except.error` case.  `new Date()` is a parameter `now : ℕ`.
* `Array.prototype.sort` (stable since ES2019) with the comparator
  `(a, b) => b.similarity - a.similarity` is modelled as a stable
  insertion sort into descending similarity order.
-/

namespace SemanticWormholes

noncomputable section

open Real

/-- Result of the external fingerprint collaborator
(`ProteinHasher.computeHash`): the content hash `phash` and the raw
eigenvalue list `eigenTop`. -/
structure HashResult where
  phash : String
  eigenTop : List ℝ

/-- `interface CodeSoul` from the source.  The `vector` field mirrors
`new Vector(eigenvalues)`: the same numbers viewed as a vector. -/
structure CodeSoul where
  id : String
  code : String
  hash : String
  eigenvalues : List ℝ
  vector : List ℝ
  timestamp : ℕ
  source : Option String

/-- `interface WormholeConnection` from the source (`from` is a Lean
keyword and `to` a reserved token, hence `from'`, `to'`). -/
structure WormholeConnection where
  from' : CodeSoul
  to' : CodeSoul
  similarity : ℝ
  distance : ℝ
  energy : ℝ
  stability : ℝ
  resonance : ℝ

/-- Engine state: the two `Map`s owned by `class WormholeEngine`, plus the
fixed eigenvalue dimensionality (`private dimensionality: number = 10`). -/
structure EngineState where
  souls : List (String × CodeSoul)
  connections : List (String × List WormholeConnection)
  dimensionality : ℕ

/-- `new WormholeEngine()`: both maps empty, dimensionality 10. -/
def WormholeEngine.init : EngineState :=
  { souls := [], connections := [], dimensionality := 10 }

/-- JavaScript `Map.prototype.set`: update in place if the key is present
(keeping its insertion-order position), otherwise append. -/
def mapSet {α : Type} (m : List (String × α)) (k : String) (v : α) :
    List (String × α) :=
  if m.any (fun p => p.1 == k) then
    m.map (fun p => if p.1 == k then (k, v) else p)
  else
    m ++ [(k, v)]

/-- JavaScript `Map.prototype.get` with a default (`?? d`). -/
def lookupD {α : Type} (m : List (String × α)) (k : String) (d : α) : α :=
  match m.find? (fun p => p.1 == k) with
  | some p => p.2
  | none => d

/-- JavaScript `Map.prototype.has` / key membership. -/
def mapHas {α : Type} (m : List (String × α)) (k : String) : Bool :=
  m.any (fun p => p.1 == k)

/-- JavaScript `id || fallback`: the empty string is falsy. -/
def jsOr (id? : Option String) (fallback : String) : String :=
  match id? with
  | some s => if s = "" then fallback else s
  | none => fallback

/-- `normalizeEigenvalues`: a zero array of length `dimensionality` whose
first `min (eigenvalues.length) dimensionality` entries are copied
positionally from the input. -/
def normalizeEigenvalues (dimensionality : ℕ) (eigenvalues : List ℝ) :
    List ℝ :=
  (List.range dimensionality).map (fun i => eigenvalues.getD i 0)

/-- Dot product of two vectors (`Vector.prototype.dot`). -/
def dot (v1 v2 : List ℝ) : ℝ :=
  (List.zipWith (fun x y => x * y) v1 v2).sum

/-- Euclidean norm of a vector (`Vector.prototype.norm`). -/
def vnorm (v : List ℝ) : ℝ :=
  Real.sqrt ((v.map (fun x => x ^ 2)).sum)

/-- `euclideanDistance`: `v1.subtract(v2).norm()`. -/
def euclideanDistance (v1 v2 : List ℝ) : ℝ :=
  vnorm (List.zipWith (fun x y => x - y) v1 v2)

/-- `cosineSimilarity`: `dot / (norm1 * norm2)`, and `0` whenever either
norm is `0`. -/
def cosineSimilarity (v1 v2 : List ℝ) : ℝ :=
  let d := dot v1 v2
  let norm1 := vnorm v1
  let norm2 := vnorm v2
  if norm1 = 0 ∨ norm2 = 0 then 0 else d / (norm1 * norm2)

/-- `wormholeEnergy`: `distance² / similarity`.  The source returns
`Infinity` when `similarity === 0`; that branch is unreachable for any
admitted connection (admission requires `similarity > 0.7`) and `ℝ` has
no infinity, so it is modelled as `0` here; none of the theorems below
inspects the energy of a connection with zero similarity. -/
def wormholeEnergy (distance similarity : ℝ) : ℝ :=
  if similarity = 0 then 0 else distance ^ 2 / similarity

/-- `wormholeStability`: logistic curve with steepness `k = 10` and
midpoint `x0 = 0.8`. -/
def wormholeStability (similarity : ℝ) : ℝ :=
  1 / (1 + Real.exp (-10 * (similarity - 0.8)))

/-- The reference harmonic ratios from `harmonicResonance`. -/
def harmonicRatios : List ℝ := [1, 2, 0.5, 1.5, 0.667, 1.333]

/-- Per-coordinate score of `harmonicResonance`: the running
`Math.max`, starting from `0`, of `exp (-(ratio - harmonic)²)` over the
reference ratios. -/
def resonanceScore (ratio : ℝ) : ℝ :=
  harmonicRatios.foldl
    (fun maxResonance harmonic =>
      max maxResonance (Real.exp (-(ratio - harmonic) ^ 2))) 0

/-- `harmonicResonance` over `ℝ` (with Mathlib's `x / 0 = 0` convention;
see `jsHarmonicResonance` for the exact float behaviour at zero
denominators). -/
def harmonicResonance (eigen1 eigen2 : List ℝ) : ℝ :=
  let n := min eigen1.length eigen2.length
  let resonanceSum :=
    ((List.range n).map (fun i =>
      resonanceScore ((432 * eigen2.getD i 0) / (432 * eigen1.getD i 0)))).sum
  resonanceSum / n

/-- One step of the stable insertion sort modelling
`connections.sort((a, b) => b.similarity - a.similarity)`: the element is
placed after every element of strictly greater similarity and before the
first element of smaller or equal similarity; since it is inserted into
the sorted image of the elements that followed it, equal-similarity
elements keep their original relative order (stability). -/
def insertBySimilarityDesc (c : WormholeConnection) :
    List WormholeConnection → List WormholeConnection
  | [] => [c]
  | d :: ds =>
    if c.similarity ≥ d.similarity then c :: d :: ds
    else d :: insertBySimilarityDesc c ds

/-- Stable sort by similarity, descending (JavaScript `Array.prototype.sort`
is stable); ties keep their original relative order. -/
def sortBySimilarityDesc : List WormholeConnection → List WormholeConnection
  | [] => []
  | c :: cs => insertBySimilarityDesc c (sortBySimilarityDesc cs)

/-- The loop body of `findWormholes`: scan the souls map in iteration
order, skip the entry whose key equals the new soul's id, compute the five
metrics, and keep the pair as a connection only when `similarity > 0.7`. -/
def candidateConnections (souls : List (String × CodeSoul))
    (soul : CodeSoul) : List WormholeConnection :=
  souls.filterMap (fun p =>
    if p.1 == soul.id then none
    else
      let otherSoul := p.2
      let distance := euclideanDistance soul.vector otherSoul.vector
      let similarity := cosineSimilarity soul.vector otherSoul.vector
      let energy := wormholeEnergy distance similarity
      let stability := wormholeStability similarity
      let resonance := harmonicResonance soul.eigenvalues otherSoul.eigenvalues
      if similarity > 0.7 then
        some { from' := soul, to' := otherSoul, similarity := similarity,
               distance := distance, energy := energy,
               stability := stability, resonance := resonance }
      else none)

/-- `findWormholes`: collect the admitted connections, sort them by
similarity descending, store the sorted list under the soul's id, and
return it. -/
def findWormholes (st : EngineState) (soul : CodeSoul) :
    List WormholeConnection × EngineState :=
  let connections := sortBySimilarityDesc (candidateConnections st.souls soul)
  (connections, { st with connections := mapSet st.connections soul.id connections })

/-- `addCodeSoul`: fingerprint the code (propagating collaborator
failure), build the soul, store it, and run `findWormholes`; the source
returns only the soul (the connection list computed by `findWormholes` is
discarded by `addCodeSoul`). -/
def addCodeSoul {ε : Type} (hasher : String → Except ε HashResult)
    (st : EngineState) (code : String) (id? : Option String)
    (source? : Option String) (now : ℕ) :
    Except ε (CodeSoul × EngineState) := do
  let result ← hasher code
  let soulId := jsOr id? result.phash
  let eigenvalues := normalizeEigenvalues st.dimensionality result.eigenTop
  let soul : CodeSoul :=
    { id := soulId, code := code, hash := result.phash,
      eigenvalues := eigenvalues, vector := eigenvalues,
      timestamp := now, source := source? }
  let st1 := { st with souls := mapSet st.souls soulId soul }
  let (_, st2) := findWormholes st1 soul
  return (soul, st2)

/-- The state after an `addCodeSoul` call: the new state on success, the
old state when the fingerprint collaborator throws (the exception aborts
`addCodeSoul` before any mutation). -/
def applyInsert {ε : Type} (hasher : String → Except ε HashResult)
    (st : EngineState) (code : String) (id? : Option String)
    (source? : Option String) (now : ℕ) : EngineState :=
  match addCodeSoul hasher st code id? source? now with
  | Except.ok r => r.2
  | Except.error _ => st

/-- Engine states reachable from `new WormholeEngine()` by any sequence of
`addCodeSoul` calls (with arbitrary collaborators, arguments and clock
readings, successful or not). -/
inductive Reachable : EngineState → Prop
  | init : Reachable WormholeEngine.init
  | step {ε : Type} {st : EngineState} (hasher : String → Except ε HashResult)
      (code : String) (id? : Option String) (source? : Option String)
      (now : ℕ) : Reachable st →
      Reachable (applyInsert hasher st code id? source? now)

/-!
## IEEE-style model of `harmonicResonance`

JavaScript numbers are IEEE doubles: `x / 0` is `Infinity`, `-Infinity`
or `NaN` (for `0 / 0`), and `Math.max` returns `NaN` as soon as one
argument is `NaN`.  `harmonicResonance` divides by `432 * eigen1[i]`
without a guard and divides the final sum by `min(len, len)` without a
guard, so these values are reachable; `JSNum` makes them explicit.
-/

/-- A JavaScript number: a finite real, `Infinity`, `-Infinity` or `NaN`. -/
inductive JSNum : Type
  | fin (x : ℝ)
  | inf
  | ninf
  | nan
deriving DecidableEq

/-- IEEE division of two finite numbers: `x / 0` is `NaN` when `x = 0`,
otherwise a signed infinity. -/
def jsDivR (x y : ℝ) : JSNum :=
  if y = 0 then
    if x = 0 then JSNum.nan else if x > 0 then JSNum.inf else JSNum.ninf
  else JSNum.fin (x / y)

/-- Subtract a finite constant (`ratio - harmonic`). -/
def jsSubR (a : JSNum) (h : ℝ) : JSNum :=
  match a with
  | JSNum.fin x => JSNum.fin (x - h)
  | JSNum.inf => JSNum.inf
  | JSNum.ninf => JSNum.ninf
  | JSNum.nan => JSNum.nan

/-- `Math.pow(a, 2)` / squaring: infinities square to `Infinity`. -/
def jsSq (a : JSNum) : JSNum :=
  match a with
  | JSNum.fin x => JSNum.fin (x ^ 2)
  | JSNum.inf => JSNum.inf
  | JSNum.ninf => JSNum.inf
  | JSNum.nan => JSNum.nan

/-- Negation. -/
def jsNeg (a : JSNum) : JSNum :=
  match a with
  | JSNum.fin x => JSNum.fin (-x)
  | JSNum.inf => JSNum.ninf
  | JSNum.ninf => JSNum.inf
  | JSNum.nan => JSNum.nan

/-- `Math.exp`: `exp (-Infinity) = 0`, `exp Infinity = Infinity`,
`exp NaN = NaN`. -/
def jsExp (a : JSNum) : JSNum :=
  match a with
  | JSNum.fin x => JSNum.fin (Real.exp x)
  | JSNum.inf => JSNum.inf
  | JSNum.ninf => JSNum.fin 0
  | JSNum.nan => JSNum.nan

/-- `Math.max`: `NaN` if either argument is `NaN`. -/
def jsMax (a b : JSNum) : JSNum :=
  match a, b with
  | JSNum.nan, _ => JSNum.nan
  | _, JSNum.nan => JSNum.nan
  | JSNum.inf, _ => JSNum.inf
  | _, JSNum.inf => JSNum.inf
  | JSNum.ninf, b => b
  | a, JSNum.ninf => a
  | JSNum.fin x, JSNum.fin y => JSNum.fin (max x y)

/-- IEEE addition of the running sum and a score. -/
def jsAdd (a b : JSNum) : JSNum :=
  match a, b with
  | JSNum.nan, _ => JSNum.nan
  | _, JSNum.nan => JSNum.nan
  | JSNum.inf, JSNum.ninf => JSNum.nan
  | JSNum.ninf, JSNum.inf => JSNum.nan
  | JSNum.inf, _ => JSNum.inf
  | _, JSNum.inf => JSNum.inf
  | JSNum.ninf, _ => JSNum.ninf
  | _, JSNum.ninf => JSNum.ninf
  | JSNum.fin x, JSNum.fin y => JSNum.fin (x + y)

/-- Final division `resonanceSum / min(len1, len2)`: `0 / 0 = NaN`. -/
def jsDivN (a : JSNum) (n : ℕ) : JSNum :=
  match a with
  | JSNum.fin x => jsDivR x n
  | JSNum.inf => if n = 0 then JSNum.nan else JSNum.inf
  | JSNum.ninf => if n = 0 then JSNum.nan else JSNum.ninf
  | JSNum.nan => JSNum.nan

/-- `harmonicResonance` with exact IEEE semantics for the two unguarded
divisions (the eigenvalue ratio and the final mean). -/
def jsHarmonicResonance (eigen1 eigen2 : List ℝ) : JSNum :=
  let n := min eigen1.length eigen2.length
  let resonanceSum :=
    (List.range n).foldl (fun acc i =>
      let freq1 := 432 * eigen1.getD i 0
      let freq2 := 432 * eigen2.getD i 0
      let ratio := jsDivR freq2 freq1
      let maxResonance := harmonicRatios.foldl
        (fun m harmonic => jsMax m (jsExp (jsNeg (jsSq (jsSubR ratio harmonic)))))
        (JSNum.fin 0)
      jsAdd acc maxResonance) (JSNum.fin 0)
  jsDivN resonanceSum n

/-! ## Named forms of the insert result

`insertedSoul`/`insertedState` name the soul and the state that a
successful `addCodeSoul` call produces (the value of the `do` block);
`addCodeSoul_ok_eq` below proves that `addCodeSoul` returns exactly
this pair whenever the collaborator succeeds. -/

/-- The soul constructed by a successful `addCodeSoul` call. -/
def insertedSoul (st : EngineState) (code : String)
    (id? source? : Option String) (now : ℕ) (r : HashResult) : CodeSoul :=
  { id := jsOr id? r.phash, code := code, hash := r.phash,
    eigenvalues := normalizeEigenvalues st.dimensionality r.eigenTop,
    vector := normalizeEigenvalues st.dimensionality r.eigenTop,
    timestamp := now, source := source? }

/-- The state produced by a successful `addCodeSoul` call. -/
def insertedState (st : EngineState) (code : String)
    (id? source? : Option String) (now : ℕ) (r : HashResult) : EngineState :=
  { souls := mapSet st.souls (insertedSoul st code id? source? now r).id
      (insertedSoul st code id? source? now r),
    connections := mapSet st.connections
      (insertedSoul st code id? source? now r).id
      (sortBySimilarityDesc (candidateConnections
        (mapSet st.souls (insertedSoul st code id? source? now r).id
          (insertedSoul st code id? source? now r))
        (insertedSoul st code id? source? now r))),
    dimensionality := st.dimensionality }

/-! ## A concrete three-insert run

Used as concrete input for the theorems below: insert code "a" under id
"x", insert the same code "a" under id "y" (admitting one connection
y → x with similarity 1), then re-insert under the existing id "y" with
code "z" whose feature vector is all zeros. -/

/-- Deterministic collaborator for the concrete run: the hash is the code
text, the eigenvalue list is `[1]` for code `"a"` and empty otherwise. -/
def cexHasher : String → Except Unit HashResult := fun code =>
  Except.ok ⟨code, if code == "a" then [1] else []⟩

/-- The normalized feature vector of eigenvalue list `[1]`. -/
def vOne : List ℝ := normalizeEigenvalues 10 [1]

/-- The normalized feature vector of the empty eigenvalue list. -/
def vZero : List ℝ := normalizeEigenvalues 10 []

/-- Soul stored by the first insert (code "a", id "x", time 0). -/
def soulX : CodeSoul :=
  { id := "x", code := "a", hash := "a", eigenvalues := vOne,
    vector := vOne, timestamp := 0, source := none }

/-- Soul stored by the second insert (code "a", id "y", time 1). -/
def soulY : CodeSoul :=
  { id := "y", code := "a", hash := "a", eigenvalues := vOne,
    vector := vOne, timestamp := 1, source := none }

/-- Soul stored by the third insert (code "z", reused id "y", time 2). -/
def soulZ : CodeSoul :=
  { id := "y", code := "z", hash := "z", eigenvalues := vZero,
    vector := vZero, timestamp := 2, source := none }

/-- The connection admitted by the second insert (y → x, similarity 1). -/
def connYX : WormholeConnection :=
  { from' := soulY, to' := soulX, similarity := 1, distance := 0,
    energy := 0, stability := wormholeStability 1,
    resonance := harmonicResonance vOne vOne }

/-- Engine state after the first insert. -/
def cexState1 : EngineState :=
  { souls := [("x", soulX)], connections := [("x", [])],
    dimensionality := 10 }

/-- Engine state after the second insert. -/
def cexState2 : EngineState :=
  { souls := [("x", soulX), ("y", soulY)],
    connections := [("x", []), ("y", [connYX])], dimensionality := 10 }

/-- Engine state after the third insert: re-inserting under id "y"
replaced the list `[connYX]` recorded for "y" with `[]`. -/
def cexState3 : EngineState :=
  { souls := [("x", soulX), ("y", soulZ)],
    connections := [("x", []), ("y", [])], dimensionality := 10 }

/-- Engine state after inserting code "a" under id "y" into the empty
engine (for comparison with the same call on `cexState1`). -/
def cexState1y : EngineState :=
  { souls := [("y", soulY)], connections := [("y", [])],
    dimensionality := 10 }

/-! ## Association-map lemmas -/

theorem find?_map_update_self {α : Type} {m : List (String × α)} {k : String}
    (v : α) (hmem : (m.any fun p => p.1 == k) = true) :
    (m.map (fun p => if (p.1 == k) = true then (k, v) else p)).find?
      (fun p => p.1 == k) = some (k, v) := by
  induction m with
  | nil => simp at hmem
  | cons p ps ih =>
    simp only [List.any_cons, Bool.or_eq_true] at hmem
    by_cases hp : (p.1 == k) = true
    · rw [List.map_cons, if_pos hp]
      exact List.find?_cons_of_pos _ (by simp)
    · rw [List.map_cons, if_neg hp,
        List.find?_cons_of_neg (p := fun q : String × α => q.1 == k) _ hp]
      exact ih (hmem.resolve_left hp)

theorem find?_map_update_ne {α : Type} {m : List (String × α)} {k k' : String}
    (v : α) (hne : k' ≠ k) :
    (m.map (fun p => if (p.1 == k) = true then (k, v) else p)).find?
      (fun p => p.1 == k') = m.find? (fun p => p.1 == k') := by
  have hkk' : ¬ (((k, v) : String × α).1 == k') = true := by
    simp only [beq_iff_eq]
    exact fun h => hne h.symm
  induction m with
  | nil => rfl
  | cons p ps ih =>
    by_cases hp : (p.1 == k) = true
    · have hpk : p.1 = k := by simpa using hp
      have hpk' : ¬ (p.1 == k') = true := by
        simp only [beq_iff_eq, hpk]
        exact fun h => hne h.symm
      rw [List.map_cons, if_pos hp,
        List.find?_cons_of_neg (p := fun q : String × α => q.1 == k') _ hkk',
        List.find?_cons_of_neg (p := fun q : String × α => q.1 == k') _ hpk']
      exact ih
    · rw [List.map_cons, if_neg hp]
      by_cases hpk' : (p.1 == k') = true
      · rw [List.find?_cons_of_pos (p := fun q : String × α => q.1 == k') _ hpk',
          List.find?_cons_of_pos (p := fun q : String × α => q.1 == k') _ hpk']
      · rw [List.find?_cons_of_neg (p := fun q : String × α => q.1 == k') _ hpk',
          List.find?_cons_of_neg (p := fun q : String × α => q.1 == k') _ hpk']
        exact ih

theorem find?_none_of_not_any {α : Type} {m : List (String × α)} {k : String}
    (hmem : ¬ (m.any fun p => p.1 == k) = true) :
    m.find? (fun p => p.1 == k) = none := by
  rw [List.find?_eq_none]
  intro q hq hqk
  exact hmem (List.any_eq_true.2 ⟨q, hq, hqk⟩)

theorem lookupD_mapSet_self {α : Type} (m : List (String × α)) (k : String)
    (v : α) (d : α) : lookupD (mapSet m k v) k d = v := by
  by_cases hmem : (m.any fun p => p.1 == k) = true
  · unfold lookupD mapSet
    rw [if_pos hmem, find?_map_update_self v hmem]
  · unfold lookupD mapSet
    rw [if_neg hmem, List.find?_append, find?_none_of_not_any hmem,
      Option.none_or]
    simp

theorem lookupD_mapSet_ne {α : Type} (m : List (String × α)) {k k' : String}
    (v : α) (d : α) (hne : k' ≠ k) :
    lookupD (mapSet m k v) k' d = lookupD m k' d := by
  have hsingle : List.find? (fun p : String × α => p.1 == k') [(k, v)] = none := by
    simp only [List.find?_eq_none, List.mem_singleton, beq_iff_eq]
    rintro q rfl h
    exact hne h.symm
  by_cases hmem : (m.any fun p => p.1 == k) = true
  · unfold lookupD mapSet
    rw [if_pos hmem, find?_map_update_ne v hne]
  · unfold lookupD mapSet
    rw [if_neg hmem, List.find?_append, hsingle, Option.or_none]

theorem mapHas_mapSet {α : Type} (m : List (String × α)) (k k' : String)
    (v : α) : mapHas (mapSet m k v) k' = (mapHas m k' || (k == k')) := by
  by_cases hmem : (m.any fun p => p.1 == k) = true
  · unfold mapHas mapSet
    rw [if_pos hmem, List.any_map]
    by_cases hkk' : k = k'
    · subst hkk'
      have hr : ((k : String) == k) = true := by simp
      rw [hr, Bool.or_true]
      rcases List.any_eq_true.1 hmem with ⟨p, hp, hpk⟩
      refine List.any_eq_true.2 ⟨p, hp, ?_⟩
      simp [Function.comp, hpk]
    · have hkk'f : ((k : String) == k') = false := by
        simp [hkk']
      rw [hkk'f, Bool.or_false]
      rw [Bool.eq_iff_iff, List.any_eq_true, List.any_eq_true]
      constructor
      · rintro ⟨p, hp, hpk'⟩
        refine ⟨p, hp, ?_⟩
        simp only [Function.comp] at hpk'
        by_cases hpkt : (p.1 == k) = true
        · rw [if_pos hpkt] at hpk'
          exact absurd (by simpa using hpk') hkk'
        · rwa [if_neg hpkt] at hpk'
      · rintro ⟨p, hp, hpk'⟩
        refine ⟨p, hp, ?_⟩
        simp only [Function.comp]
        by_cases hpkt : (p.1 == k) = true
        · have : p.1 = k := by simpa using hpkt
          rw [this] at hpk'
          exact absurd (by simpa using hpk') hkk'
        · rwa [if_neg hpkt]
  · unfold mapHas mapSet
    rw [if_neg hmem, List.any_append]
    simp

theorem mem_mapSet {α : Type} {m : List (String × α)} {k : String} {v : α}
    {q : String × α} (hq : q ∈ mapSet m k v) : q = (k, v) ∨ q ∈ m := by
  unfold mapSet at hq
  split at hq
  · rcases List.mem_map.1 hq with ⟨p, hp, hpq⟩
    by_cases hpk : p.1 == k
    · left; simp only [hpk, if_pos] at hpq; rw [← hpq]
    · right; simp only [hpk, Bool.false_eq_true, if_neg, not_false_eq_true] at hpq
      rwa [← hpq]
  · rcases List.mem_append.1 hq with hq | hq
    · right; exact hq
    · left; simp only [List.mem_singleton] at hq; rw [hq]

theorem soul_key_mapSet {m : List (String × CodeSoul)} {soul : CodeSoul}
    (hm : ∀ p ∈ m, p.2.id = p.1) {q : String × CodeSoul}
    (hq : q ∈ mapSet m soul.id soul) : q.2.id = q.1 := by
  unfold mapSet at hq
  split at hq
  · rcases List.mem_map.1 hq with ⟨p, hp, hpq⟩
    by_cases hpk : p.1 == soul.id
    · simp only [hpk, if_pos] at hpq; rw [← hpq]
    · simp only [hpk, Bool.false_eq_true, if_neg, not_false_eq_true] at hpq
      rw [← hpq]; exact hm p hp
  · rcases List.mem_append.1 hq with hq | hq
    · exact hm q hq
    · simp only [List.mem_singleton] at hq; rw [hq]

/-! ## Stable-sort lemmas -/

theorem insertBySimilarityDesc_perm (c : WormholeConnection)
    (l : List WormholeConnection) :
    (insertBySimilarityDesc c l).Perm (c :: l) := by
  induction l with
  | nil => simp [insertBySimilarityDesc]
  | cons d ds ih =>
    unfold insertBySimilarityDesc
    split
    · exact List.Perm.refl _
    · exact (ih.cons d).trans (List.Perm.swap c d ds)

theorem sortBySimilarityDesc_perm (l : List WormholeConnection) :
    (sortBySimilarityDesc l).Perm l := by
  induction l with
  | nil => simp [sortBySimilarityDesc]
  | cons c cs ih =>
    exact (insertBySimilarityDesc_perm c _).trans (ih.cons c)

theorem sorted_insertBySimilarityDesc {c : WormholeConnection}
    {l : List WormholeConnection}
    (hl : l.Pairwise (fun a b => b.similarity ≤ a.similarity)) :
    (insertBySimilarityDesc c l).Pairwise
      (fun a b => b.similarity ≤ a.similarity) := by
  induction l with
  | nil => simp [insertBySimilarityDesc]
  | cons d ds ih =>
    rcases List.pairwise_cons.1 hl with ⟨hd, hds⟩
    unfold insertBySimilarityDesc
    split
    case isTrue hge =>
      refine List.pairwise_cons.2 ⟨?_, hl⟩
      intro x hx
      rcases List.mem_cons.1 hx with rfl | hx
      · exact hge
      · exact le_trans (hd x hx) hge
    case isFalse hlt =>
      refine List.pairwise_cons.2 ⟨?_, ih hds⟩
      intro x hx
      have hx' : x ∈ c :: ds :=
        (insertBySimilarityDesc_perm c ds).mem_iff.1 hx
      rcases List.mem_cons.1 hx' with rfl | hx'
      · exact le_of_not_le hlt
      · exact hd x hx'

theorem sortBySimilarityDesc_sorted (l : List WormholeConnection) :
    (sortBySimilarityDesc l).Pairwise
      (fun a b => b.similarity ≤ a.similarity) := by
  induction l with
  | nil => simp [sortBySimilarityDesc]
  | cons c cs ih => exact sorted_insertBySimilarityDesc ih

theorem filter_insertBySimilarityDesc (v : ℝ) (c : WormholeConnection)
    (l : List WormholeConnection) :
    (insertBySimilarityDesc c l).filter (fun a => decide (a.similarity = v)) =
      if c.similarity = v then
        c :: l.filter (fun a => decide (a.similarity = v))
      else l.filter (fun a => decide (a.similarity = v)) := by
  induction l with
  | nil =>
    by_cases hc : c.similarity = v <;>
      simp [insertBySimilarityDesc, List.filter, hc]
  | cons d ds ih =>
    unfold insertBySimilarityDesc
    split
    case isTrue hge =>
      by_cases hc : c.similarity = v <;>
        simp [List.filter_cons, hc]
    case isFalse hlt =>
      have hdc : d.similarity > c.similarity := lt_of_not_le hlt
      by_cases hc : c.similarity = v
      · have hd : ¬ d.similarity = v := by
          intro hdv; rw [hdv, ← hc] at hdc; exact lt_irrefl _ hdc
        simp [List.filter_cons, hd, ih, hc]
      · by_cases hd : d.similarity = v <;>
          simp [List.filter_cons, hd, ih, hc]

theorem filter_sortBySimilarityDesc (v : ℝ) (l : List WormholeConnection) :
    (sortBySimilarityDesc l).filter (fun a => decide (a.similarity = v)) =
      l.filter (fun a => decide (a.similarity = v)) := by
  induction l with
  | nil => simp [sortBySimilarityDesc]
  | cons c cs ih =>
    rw [sortBySimilarityDesc, filter_insertBySimilarityDesc]
    by_cases hc : c.similarity = v <;> simp [List.filter_cons, hc, ih]

/-! ## Unfolding lemmas for the insert path -/

theorem addCodeSoul_ok_inv {ε : Type} {hasher : String → Except ε HashResult}
    {st : EngineState} {code : String} {id? source? : Option String} {now : ℕ}
    {soul : CodeSoul} {st' : EngineState}
    (h : addCodeSoul hasher st code id? source? now = Except.ok (soul, st')) :
    ∃ r : HashResult, hasher code = Except.ok r ∧
      soul = { id := jsOr id? r.phash, code := code, hash := r.phash,
               eigenvalues := normalizeEigenvalues st.dimensionality r.eigenTop,
               vector := normalizeEigenvalues st.dimensionality r.eigenTop,
               timestamp := now, source := source? } ∧
      st' = { souls := mapSet st.souls soul.id soul,
              connections := mapSet st.connections soul.id
                (sortBySimilarityDesc
                  (candidateConnections (mapSet st.souls soul.id soul) soul)),
              dimensionality := st.dimensionality } := by
  cases hr : hasher code with
  | error e =>
    rw [addCodeSoul, hr] at h
    exact absurd h (by simp [Bind.bind, Except.bind])
  | ok r =>
    refine ⟨r, rfl, ?_⟩
    rw [addCodeSoul, hr] at h
    simp only [Bind.bind, Except.bind, findWormholes, Except.pure,
      Except.ok.injEq, Prod.mk.injEq, pure] at h
    obtain ⟨hsoul, hst'⟩ := h
    constructor
    · exact hsoul.symm
    · rw [← hst', ← hsoul]

theorem mem_candidateConnections {souls : List (String × CodeSoul)}
    {soul : CodeSoul} {c : WormholeConnection}
    (hc : c ∈ candidateConnections souls soul) :
    ∃ p ∈ souls, ¬ (p.1 == soul.id) = true ∧
      cosineSimilarity soul.vector p.2.vector > 0.7 ∧
      c = { from' := soul, to' := p.2,
            similarity := cosineSimilarity soul.vector p.2.vector,
            distance := euclideanDistance soul.vector p.2.vector,
            energy := wormholeEnergy (euclideanDistance soul.vector p.2.vector)
              (cosineSimilarity soul.vector p.2.vector),
            stability := wormholeStability
              (cosineSimilarity soul.vector p.2.vector),
            resonance := harmonicResonance soul.eigenvalues
              p.2.eigenvalues } := by
  rw [candidateConnections, List.mem_filterMap] at hc
  obtain ⟨p, hp, hfp⟩ := hc
  refine ⟨p, hp, ?_⟩
  by_cases hid : (p.1 == soul.id) = true
  · rw [if_pos hid] at hfp
    cases hfp
  · rw [if_neg hid] at hfp
    simp only at hfp
    by_cases hsim : cosineSimilarity soul.vector p.2.vector > 0.7
    · rw [if_pos hsim] at hfp
      cases hfp
      exact ⟨hid, hsim, rfl⟩
    · rw [if_neg hsim] at hfp
      cases hfp

theorem reachable_soul_keys {st : EngineState} (h : Reachable st) :
    ∀ p ∈ st.souls, p.2.id = p.1 := by
  induction h with
  | init => intro p hp; simp [WormholeEngine.init] at hp
  | step hasher code id? source? now hst ih =>
    intro p hp
    unfold applyInsert at hp
    cases hins : addCodeSoul hasher ‹EngineState› code id? source? now with
    | error e => rw [hins] at hp; exact ih p hp
    | ok pr =>
      obtain ⟨soul, st'⟩ := pr
      rw [hins] at hp
      obtain ⟨r, hr, hsoul, hst'⟩ := addCodeSoul_ok_inv hins
      rw [hst'] at hp
      exact soul_key_mapSet ih hp

/-! ## Zero-vector lemmas -/

theorem vnorm_eq_zero_of_all_zero {v : List ℝ} (hv : ∀ x ∈ v, x = 0) :
    vnorm v = 0 := by
  unfold vnorm
  have : (v.map fun x => x ^ 2).sum = 0 := by
    apply List.sum_eq_zero
    intro x hx
    rcases List.mem_map.1 hx with ⟨y, hy, hxy⟩
    rw [← hxy, hv y hy]
    ring
  rw [this, Real.sqrt_zero]

theorem getD_eq_zero_of_all_zero {v : List ℝ} (hv : ∀ x ∈ v, x = 0)
    (i : ℕ) : v.getD i 0 = 0 := by
  rw [List.getD_eq_getElem?_getD]
  cases hvi : v[i]? with
  | none => rfl
  | some x =>
    obtain ⟨hlt, hx⟩ := List.getElem?_eq_some_iff.1 hvi
    simp [hv x (hx ▸ List.getElem_mem hlt)]

theorem normalize_all_zero {d : ℕ} {es : List ℝ} (h : ∀ x ∈ es, x = 0) :
    ∀ x ∈ normalizeEigenvalues d es, x = 0 := by
  intro x hx
  rcases List.mem_map.1 hx with ⟨i, _, hix⟩
  rw [← hix]
  exact getD_eq_zero_of_all_zero h i

theorem cosineSimilarity_left_zero {v w : List ℝ} (hv : vnorm v = 0) :
    cosineSimilarity v w = 0 := by
  unfold cosineSimilarity
  rw [if_pos (Or.inl hv)]

theorem candidateConnections_eq_nil_of_zero_vector
    {souls : List (String × CodeSoul)} {soul : CodeSoul}
    (hz : ∀ x ∈ soul.vector, x = 0) :
    candidateConnections souls soul = [] := by
  rw [candidateConnections, List.filterMap_eq_nil_iff]
  intro p _
  by_cases hid : (p.1 == soul.id) = true
  · rw [if_pos hid]
  · rw [if_neg hid]
    simp only
    rw [if_neg]
    rw [cosineSimilarity_left_zero (vnorm_eq_zero_of_all_zero hz)]
    norm_num

/-! ## Evaluation of the concrete run -/

theorem addCodeSoul_ok_eq {ε : Type} {hasher : String → Except ε HashResult}
    {st : EngineState} {code : String} {id? source? : Option String}
    {now : ℕ} {r : HashResult} (hr : hasher code = Except.ok r) :
    addCodeSoul hasher st code id? source? now =
      Except.ok (insertedSoul st code id? source? now r,
                 insertedState st code id? source? now r) := by
  rw [addCodeSoul, hr]
  rfl

theorem vOne_eq : vOne = [1, 0, 0, 0, 0, 0, 0, 0, 0, 0] := rfl

theorem vnorm_vOne : vnorm vOne = 1 := by
  rw [vOne_eq, vnorm]
  simp only [List.map_cons, List.map_nil, List.sum_cons, List.sum_nil]
  norm_num

theorem dot_vOne_vOne : dot vOne vOne = 1 := by
  rw [vOne_eq, dot]
  simp only [List.zipWith_cons_cons, List.zipWith_nil_right, List.sum_cons,
    List.sum_nil]
  norm_num

theorem cos_vOne_vOne : cosineSimilarity vOne vOne = 1 := by
  rw [cosineSimilarity]
  simp only [vnorm_vOne, dot_vOne_vOne]
  norm_num

theorem dist_vOne_vOne : euclideanDistance vOne vOne = 0 := by
  rw [vOne_eq, euclideanDistance, vnorm]
  simp only [List.zipWith_cons_cons, List.zipWith_nil_right, List.map_cons,
    List.map_nil, List.sum_cons, List.sum_nil]
  norm_num

theorem vnorm_vZero : vnorm vZero = 0 :=
  vnorm_eq_zero_of_all_zero (normalize_all_zero (by simp))

theorem energy_zero_one : wormholeEnergy 0 1 = 0 := by
  rw [wormholeEnergy, if_neg one_ne_zero]
  norm_num

theorem candidates2 :
    candidateConnections [("x", soulX), ("y", soulY)] soulY = [connYX] := by
  have hyid : soulY.id = "y" := rfl
  have hyv : soulY.vector = vOne := rfl
  have hxv : soulX.vector = vOne := rfl
  have hye : soulY.eigenvalues = vOne := rfl
  have hxe : soulX.eigenvalues = vOne := rfl
  rw [candidateConnections]
  rw [List.filterMap_cons, List.filterMap_cons, List.filterMap_nil]
  have hx : ((("x", soulX) : String × CodeSoul).1 == soulY.id) = false := rfl
  have hy : ((("y", soulY) : String × CodeSoul).1 == soulY.id) = true := rfl
  rw [hx, hy]
  simp only [Bool.false_eq_true, if_false, if_true]
  simp only [hyv, hxv, hye, hxe, cos_vOne_vOne, dist_vOne_vOne,
    energy_zero_one]
  rw [if_pos (by norm_num : (1 : ℝ) > 0.7)]
  rfl

theorem insert1_eval :
    addCodeSoul cexHasher WormholeEngine.init "a" (some "x") none 0 =
      Except.ok (soulX, cexState1) := by
  rw [addCodeSoul_ok_eq (show cexHasher "a" = Except.ok ⟨"a", [1]⟩ from rfl)]
  rfl

theorem insert1y_eval :
    addCodeSoul cexHasher WormholeEngine.init "a" (some "y") none 1 =
      Except.ok (soulY, cexState1y) := by
  rw [addCodeSoul_ok_eq (show cexHasher "a" = Except.ok ⟨"a", [1]⟩ from rfl)]
  rfl

theorem insert2_eval :
    addCodeSoul cexHasher cexState1 "a" (some "y") none 1 =
      Except.ok (soulY, cexState2) := by
  rw [addCodeSoul_ok_eq (show cexHasher "a" = Except.ok ⟨"a", [1]⟩ from rfl)]
  have hsoul : insertedSoul cexState1 "a" (some "y") none 1 ⟨"a", [1]⟩ =
      soulY := rfl
  have hst : insertedState cexState1 "a" (some "y") none 1 ⟨"a", [1]⟩ =
      cexState2 := by
    rw [insertedState, hsoul]
    have hsouls : mapSet cexState1.souls soulY.id soulY =
        [("x", soulX), ("y", soulY)] := rfl
    rw [hsouls, candidates2]
    rw [show sortBySimilarityDesc [connYX] = [connYX] from rfl]
    rfl
  rw [hsoul, hst]

theorem candidates3 :
    candidateConnections [("x", soulX), ("y", soulZ)] soulZ = [] := by
  apply candidateConnections_eq_nil_of_zero_vector
  intro x hx
  exact normalize_all_zero (by simp) x hx

theorem insert3_eval :
    addCodeSoul cexHasher cexState2 "z" (some "y") none 2 =
      Except.ok (soulZ, cexState3) := by
  rw [addCodeSoul_ok_eq (show cexHasher "z" = Except.ok ⟨"z", []⟩ from rfl)]
  have hsoul : insertedSoul cexState2 "z" (some "y") none 2 ⟨"z", []⟩ =
      soulZ := rfl
  have hst : insertedState cexState2 "z" (some "y") none 2 ⟨"z", []⟩ =
      cexState3 := by
    rw [insertedState, hsoul]
    have hsouls : mapSet cexState2.souls soulZ.id soulZ =
        [("x", soulX), ("y", soulZ)] := rfl
    rw [hsouls, candidates3]
    rw [show sortBySimilarityDesc [] = [] from rfl]
    rfl
  rw [hsoul, hst]

theorem reachable_cexState1 : Reachable cexState1 := by
  have h := Reachable.step cexHasher "a" (some "x") none 0 Reachable.init
  rwa [show applyInsert cexHasher WormholeEngine.init "a" (some "x") none 0 =
    cexState1 by rw [applyInsert, insert1_eval]] at h

theorem reachable_cexState2 : Reachable cexState2 := by
  have h := Reachable.step cexHasher "a" (some "y") none 1 reachable_cexState1
  rwa [show applyInsert cexHasher cexState1 "a" (some "y") none 1 =
    cexState2 by rw [applyInsert, insert2_eval]] at h

theorem reachable_cexState3 : Reachable cexState3 := by
  have h := Reachable.step cexHasher "z" (some "y") none 2 reachable_cexState2
  rwa [show applyInsert cexHasher cexState2 "z" (some "y") none 2 =
    cexState3 by rw [applyInsert, insert3_eval]] at h

/-! ## Claim theorems -/

/-- C3: in every engine state reachable by any sequence of `addCodeSoul`
calls, every connection stored in any item's connection list has
similarity strictly greater than 0.7 (so no stored connection has
similarity ≤ 0.7). -/
theorem reachable_stored_similarity_gt_070 {st : EngineState}
    (h : Reachable st) :
    ∀ q ∈ st.connections, ∀ c ∈ q.2, 0.7 < c.similarity := by
  induction h with
  | init => intro q hq; simp [WormholeEngine.init] at hq
  | step hasher code id? source? now hst ih =>
    intro q hq c hc
    unfold applyInsert at hq
    cases hins : addCodeSoul hasher ‹EngineState› code id? source? now with
    | error e => rw [hins] at hq; exact ih q hq c hc
    | ok pr =>
      obtain ⟨soul, st'⟩ := pr
      rw [hins] at hq
      obtain ⟨r, hr, hsoul, hst'⟩ := addCodeSoul_ok_inv hins
      rw [hst'] at hq
      rcases mem_mapSet hq with hq2 | hq2
      · rw [hq2] at hc
        simp only at hc
        have hc' := (sortBySimilarityDesc_perm _).subset hc
        obtain ⟨p, hp, hid, hsim, hceq⟩ := mem_candidateConnections hc'
        rw [hceq]
        exact hsim
      · exact ih q hq2 c hc

/-- C4: a successful insert whose identifier is fresh (not a key of the
corpus) leaves the connection list recorded for every pre-existing
identifier unchanged — connections are recorded only on the newly
inserted item, never retroactively on earlier items. -/
theorem insert_fresh_id_frame {ε : Type} {hasher : String → Except ε HashResult}
    {st : EngineState} {code : String} {id? source? : Option String} {now : ℕ}
    {soul : CodeSoul} {st' : EngineState}
    (h : addCodeSoul hasher st code id? source? now = Except.ok (soul, st'))
    (hfresh : mapHas st.souls soul.id = false)
    (k : String) (hk : mapHas st.souls k = true) :
    lookupD st'.connections k [] = lookupD st.connections k [] := by
  obtain ⟨r, hr, hsoul, hst'⟩ := addCodeSoul_ok_inv h
  have hkne : k ≠ soul.id := by
    intro he
    rw [he, hfresh] at hk
    cases hk
  rw [hst']
  exact lookupD_mapSet_ne st.connections _ _ hkne

/-- C6: when the fingerprint collaborator fails, `addCodeSoul` propagates
the error to its caller and the engine state is unchanged — the item is
not stored and no connection-index entry is added. -/
theorem insert_error_propagates_atomic {ε : Type}
    (hasher : String → Except ε HashResult) (st : EngineState) (code : String)
    (id? source? : Option String) (now : ℕ) (e : ε)
    (he : hasher code = Except.error e) :
    addCodeSoul hasher st code id? source? now = Except.error e ∧
    applyInsert hasher st code id? source? now = st := by
  have h1 : addCodeSoul hasher st code id? source? now = Except.error e := by
    rw [addCodeSoul, he]
    rfl
  refine ⟨h1, ?_⟩
  rw [applyInsert, h1]

/-- C8: the stability function is exactly the logistic curve
`1 / (1 + exp (-10 * (s - 0.8)))`, it is strictly monotonically
increasing, and `wormholeStability 0.8 = 1/2` exactly. -/
theorem wormholeStability_logistic_mono_midpoint :
    (∀ s : ℝ, wormholeStability s = 1 / (1 + Real.exp (-10 * (s - 0.8)))) ∧
    (∀ s t : ℝ, s < t → wormholeStability s < wormholeStability t) ∧
    wormholeStability 0.8 = 1 / 2 := by
  refine ⟨fun s => rfl, ?_, ?_⟩
  · intro s t hst
    unfold wormholeStability
    have hes : 0 < Real.exp (-10 * (s - 0.8)) := Real.exp_pos _
    have het : 0 < Real.exp (-10 * (t - 0.8)) := Real.exp_pos _
    have hlt : Real.exp (-10 * (t - 0.8)) < Real.exp (-10 * (s - 0.8)) :=
      Real.exp_lt_exp.2 (by linarith)
    rw [div_lt_div_iff₀ (by linarith) (by linarith)]
    linarith
  · unfold wormholeStability
    norm_num

/-- C9: `normalizeEigenvalues` always returns a list of length exactly
`dimensionality`, copies the first `min len dimensionality` input entries
positionally, fills the remaining positions with 0, and maps the empty
input to the all-zero vector. -/
theorem normalizeEigenvalues_spec (dimensionality : ℕ)
    (eigenvalues : List ℝ) :
    (normalizeEigenvalues dimensionality eigenvalues).length =
      dimensionality ∧
    (∀ i : ℕ, i < min eigenvalues.length dimensionality →
      (normalizeEigenvalues dimensionality eigenvalues).getD i 0 =
        eigenvalues.getD i 0) ∧
    (∀ i : ℕ, min eigenvalues.length dimensionality ≤ i →
      i < dimensionality →
      (normalizeEigenvalues dimensionality eigenvalues).getD i 0 = 0) ∧
    normalizeEigenvalues dimensionality [] =
      List.replicate dimensionality 0 := by
  refine ⟨?_, ?_, ?_, ?_⟩
  · simp [normalizeEigenvalues]
  · intro i hi
    have hid : i < dimensionality := lt_of_lt_of_le hi (min_le_right _ _)
    rw [normalizeEigenvalues, List.getD_eq_getElem?_getD, List.getElem?_map,
      List.getElem?_range hid]
    rfl
  · intro i hmin hid
    have hlen : eigenvalues.length ≤ i := by
      rcases min_cases eigenvalues.length dimensionality with ⟨heq, _⟩ | ⟨heq, _⟩
      · rwa [heq] at hmin
      · rw [heq] at hmin
        exact absurd hid (not_lt.2 hmin)
    rw [normalizeEigenvalues, List.getD_eq_getElem?_getD, List.getElem?_map,
      List.getElem?_range hid]
    simp [List.getD_eq_getElem?_getD, List.getElem?_eq_none hlen]
  · rw [normalizeEigenvalues]
    apply List.eq_replicate_iff.2
    refine ⟨by simp, ?_⟩
    intro b hb
    rcases List.mem_map.1 hb with ⟨i, _, hib⟩
    simp at hib
    exact hib.symm

/-- C10: after any sequence of inserts, the connection index and the
corpus are keyed by the same identifiers, and every connection stored
under identifier `k` has from-item identifier `k` and to-item identifier
different from `k`. -/
theorem reachable_index_alignment {st : EngineState} (h : Reachable st) :
    (∀ k : String, mapHas st.connections k = mapHas st.souls k) ∧
    (∀ q ∈ st.connections, ∀ c ∈ q.2,
      c.from'.id = q.1 ∧ c.to'.id ≠ q.1) := by
  induction h with
  | init =>
    refine ⟨fun k => rfl, ?_⟩
    intro q hq
    simp [WormholeEngine.init] at hq
  | step hasher code id? source? now hst ih =>
    obtain ⟨ih1, ih2⟩ := ih
    have hkeys := reachable_soul_keys hst
    constructor
    · intro k
      unfold applyInsert
      cases hins : addCodeSoul hasher ‹EngineState› code id? source? now with
      | error e => exact ih1 k
      | ok pr =>
        obtain ⟨soul, st'⟩ := pr
        obtain ⟨r, hr, hsoul, hst'⟩ := addCodeSoul_ok_inv hins
        rw [hst']
        simp only
        rw [mapHas_mapSet, mapHas_mapSet, ih1 k]
    · intro q hq c hc
      unfold applyInsert at hq
      cases hins : addCodeSoul hasher ‹EngineState› code id? source? now with
      | error e => rw [hins] at hq; exact ih2 q hq c hc
      | ok pr =>
        obtain ⟨soul, st'⟩ := pr
        rw [hins] at hq
        obtain ⟨r, hr, hsoul, hst'⟩ := addCodeSoul_ok_inv hins
        rw [hst'] at hq
        rcases mem_mapSet hq with hq2 | hq2
        · rw [hq2] at hc ⊢
          simp only at hc ⊢
          have hc' := (sortBySimilarityDesc_perm _).subset hc
          obtain ⟨p, hp, hid, hsim, hceq⟩ := mem_candidateConnections hc'
          have hpkey : p.2.id = p.1 := soul_key_mapSet hkeys hp
          rw [hceq]
          refine ⟨rfl, ?_⟩
          simp only

          rw [hpkey]
          intro hcon
          exact hid (by simp [hcon])
        · exact ih2 q hq2 c hc

/-- C1 (counterexample): connections are not always preserved.  In the
concrete run, after the second insert the connection index holds the
connection `connYX` under id "y", but the third insert — which reuses id
"y" — replaces that list with the freshly computed empty list, so the
recorded connection is gone.  `cexState3` is reachable from `cexState2`
by a single insert. -/
theorem connection_list_replaced_on_id_reuse :
    lookupD cexState2.connections "y" [] = [connYX] ∧
    lookupD cexState3.connections "y" [] = [] ∧
    applyInsert cexHasher cexState2 "z" (some "y") none 2 = cexState3 ∧
    Reachable cexState2 ∧ Reachable cexState3 :=
  ⟨rfl, rfl, by rw [applyInsert, insert3_eval], reachable_cexState2,
    reachable_cexState3⟩

/-- C1 (amended): a connection list recorded under an identifier `k` is
left untouched by every insert whose (chosen) identifier differs from
`k`; only an insert that reuses `k` itself replaces the list recorded
under `k` (with a freshly computed one, as the counterexample shows). -/
theorem connections_preserved_when_id_not_reused {ε : Type}
    {hasher : String → Except ε HashResult} {st : EngineState}
    {code : String} {id? source? : Option String} {now : ℕ}
    {soul : CodeSoul} {st' : EngineState}
    (h : addCodeSoul hasher st code id? source? now = Except.ok (soul, st'))
    (k : String) (hk : k ≠ soul.id) :
    lookupD st'.connections k [] = lookupD st.connections k [] := by
  obtain ⟨r, hr, hsoul, hst'⟩ := addCodeSoul_ok_inv h
  rw [hst']
  exact lookupD_mapSet_ne st.connections _ _ hk

/-- C2 (counterexample): `addCodeSoul` does not return the list of
admitted connections.  The same call (code "a", id "y", time 1) is made
on the empty engine — where no connection is admitted — and on
`cexState1` — where one connection is admitted and recorded — yet the
returned values are identical, so the return value cannot contain the
admitted-connection list. -/
theorem addCodeSoul_return_lacks_connection_list :
    (addCodeSoul cexHasher WormholeEngine.init "a" (some "y") none 1).map
        Prod.fst =
      (addCodeSoul cexHasher cexState1 "a" (some "y") none 1).map
        Prod.fst ∧
    lookupD (applyInsert cexHasher WormholeEngine.init "a"
      (some "y") none 1).connections "y" [] = [] ∧
    lookupD (applyInsert cexHasher cexState1 "a"
      (some "y") none 1).connections "y" [] = [connYX] := by
  refine ⟨?_, ?_, ?_⟩
  · rw [insert1y_eval, insert2_eval]
    rfl
  · rw [applyInsert, insert1y_eval]
    rfl
  · rw [applyInsert, insert2_eval]
    rfl

/-- C2 (amended): a successful `addCodeSoul` returns only the newly
constructed item; the list of connections admitted for the insertion —
sorted by similarity descending, ties keeping the corpus enumeration
order — is recorded as the new item's connection list (but not
returned).  The recorded list is the stable descending sort of the
admitted connections in corpus enumeration order: it is sorted, it is a
permutation of the admitted scan, and for every similarity value the
tied connections appear in their original scan order. -/
theorem insert_records_sorted_admitted_connections {ε : Type}
    {hasher : String → Except ε HashResult} {st : EngineState}
    {code : String} {id? source? : Option String} {now : ℕ}
    {soul : CodeSoul} {st' : EngineState}
    (h : addCodeSoul hasher st code id? source? now = Except.ok (soul, st')) :
    lookupD st'.connections soul.id [] =
      sortBySimilarityDesc
        (candidateConnections (mapSet st.souls soul.id soul) soul) ∧
    (lookupD st'.connections soul.id []).Pairwise
      (fun a b => b.similarity ≤ a.similarity) ∧
    (lookupD st'.connections soul.id []).Perm
      (candidateConnections (mapSet st.souls soul.id soul) soul) ∧
    ∀ v : ℝ,
      (lookupD st'.connections soul.id []).filter
          (fun c => decide (c.similarity = v)) =
        (candidateConnections (mapSet st.souls soul.id soul) soul).filter
          (fun c => decide (c.similarity = v)) := by
  obtain ⟨r, hr, hsoul, hst'⟩ := addCodeSoul_ok_inv h
  have hrec : lookupD st'.connections soul.id [] =
      sortBySimilarityDesc
        (candidateConnections (mapSet st.souls soul.id soul) soul) := by
    rw [hst']
    exact lookupD_mapSet_self _ _ _ _
  refine ⟨hrec, ?_, ?_, ?_⟩
  · rw [hrec]
    exact sortBySimilarityDesc_sorted _
  · rw [hrec]
    exact sortBySimilarityDesc_perm _
  · intro v
    rw [hrec]
    exact filter_sortBySimilarityDesc v _

/-- C5: the source's `harmonicResonance` does not return 0 when no
coordinates are compared and does not return a finite value whenever a
compared eigenvalue component is 0 on both sides: with an empty input it
computes `0 / 0 = NaN`, and with `eigen1 = [0]`, `eigen2 = [0]` the
ratio `0 / 0` is `NaN`, which `Math.max` and the final mean propagate.
(The spec requires a finite fallback and 0 for the empty case.) -/
theorem jsHarmonicResonance_nan_on_empty_and_zero :
    jsHarmonicResonance [] [1] = JSNum.nan ∧
    jsHarmonicResonance [0] [0] = JSNum.nan := by
  constructor
  · rw [jsHarmonicResonance]
    simp [jsDivN, jsDivR]
  · rw [jsHarmonicResonance]
    norm_num [harmonicRatios, jsDivR, jsSubR, jsSq, jsNeg, jsExp, jsMax,
      jsAdd, jsDivN, List.range_succ]

/-- C7: cosine similarity is exactly 0 whenever either vector has zero
norm, and otherwise equals `dot / (norm1 * norm2)`; consequently an
inserted item whose raw eigenvalue list is all zeros (hence whose
normalized feature vector is all zeros) has the empty list recorded as
its connection list, whatever the corpus. -/
theorem cosineSimilarity_guard_and_zero_vector :
    (∀ v1 v2 : List ℝ, vnorm v1 = 0 ∨ vnorm v2 = 0 →
      cosineSimilarity v1 v2 = 0) ∧
    (∀ v1 v2 : List ℝ, vnorm v1 ≠ 0 → vnorm v2 ≠ 0 →
      cosineSimilarity v1 v2 = dot v1 v2 / (vnorm v1 * vnorm v2)) ∧
    (∀ (ε : Type) (hasher : String → Except ε HashResult)
      (st : EngineState) (code : String) (id? source? : Option String)
      (now : ℕ) (r : HashResult),
      hasher code = Except.ok r → (∀ x ∈ r.eigenTop, x = 0) →
      lookupD (applyInsert hasher st code id? source? now).connections
        (jsOr id? r.phash) [] = []) := by
  refine ⟨?_, ?_, ?_⟩
  · intro v1 v2 h
    unfold cosineSimilarity
    rw [if_pos h]
  · intro v1 v2 h1 h2
    unfold cosineSimilarity
    rw [if_neg (by tauto)]
  · intro ε hasher st code id? source? now r hr hz
    rw [applyInsert, addCodeSoul_ok_eq hr]
    show lookupD (insertedState st code id? source? now r).connections
      (jsOr id? r.phash) [] = []
    rw [insertedState]
    show lookupD (mapSet st.connections
      (insertedSoul st code id? source? now r).id
      (sortBySimilarityDesc (candidateConnections
        (mapSet st.souls (insertedSoul st code id? source? now r).id
          (insertedSoul st code id? source? now r))
        (insertedSoul st code id? source? now r))))
      (jsOr id? r.phash) [] = []
    have hid : (insertedSoul st code id? source? now r).id =
        jsOr id? r.phash := rfl
    rw [candidateConnections_eq_nil_of_zero_vector
      (fun x hx => normalize_all_zero hz x hx)]
    rw [show sortBySimilarityDesc [] = [] from rfl, ← hid]
    exact lookupD_mapSet_self _ _ _ _

/-! ## Witnesses -/

/-- Witness for C1 (amended): the second insert (id "y") leaves the list
recorded for "x" unchanged. -/
theorem connections_preserved_when_id_not_reused_witness :
    ("x" : String) ≠ soulY.id ∧
    lookupD cexState2.connections "x" [] =
      lookupD cexState1.connections "x" [] :=
  ⟨by decide,
   connections_preserved_when_id_not_reused insert2_eval "x" (by decide)⟩

/-- Witness for C2 (amended), at the second insert of the concrete run. -/
theorem insert_records_sorted_admitted_connections_witness :
    lookupD cexState2.connections soulY.id [] =
      sortBySimilarityDesc
        (candidateConnections (mapSet cexState1.souls soulY.id soulY)
          soulY) ∧
    (lookupD cexState2.connections soulY.id []).Pairwise
      (fun a b => b.similarity ≤ a.similarity) :=
  ⟨(insert_records_sorted_admitted_connections insert2_eval).1,
   (insert_records_sorted_admitted_connections insert2_eval).2.1⟩

/-- Witness for C3: `cexState2` is reachable and its one stored
connection has similarity above 0.7. -/
theorem reachable_stored_similarity_gt_070_witness :
    Reachable cexState2 ∧ 0.7 < connYX.similarity :=
  ⟨reachable_cexState2,
   reachable_stored_similarity_gt_070 reachable_cexState2
     ("y", [connYX]) (by simp [cexState2]) connYX (by simp)⟩

/-- Witness for C4: the fresh-id insert of the concrete run preserves
the list recorded for "x". -/
theorem insert_fresh_id_frame_witness :
    mapHas cexState1.souls soulY.id = false ∧
    mapHas cexState1.souls "x" = true ∧
    lookupD cexState2.connections "x" [] =
      lookupD cexState1.connections "x" [] :=
  ⟨rfl, rfl, insert_fresh_id_frame insert2_eval rfl "x" rfl⟩

/-- Witness for C6: a collaborator that throws makes `addCodeSoul`
return the error and leaves the engine state unchanged. -/
theorem insert_error_propagates_atomic_witness :
    (fun _ : String => (Except.error 7 : Except ℕ HashResult)) "c" =
      Except.error 7 ∧
    addCodeSoul (fun _ : String => (Except.error 7 : Except ℕ HashResult))
      WormholeEngine.init "c" none none 0 = Except.error 7 ∧
    applyInsert (fun _ : String => (Except.error 7 : Except ℕ HashResult))
      WormholeEngine.init "c" none none 0 = WormholeEngine.init :=
  ⟨rfl,
   (insert_error_propagates_atomic _ WormholeEngine.init "c" none none 0
     7 rfl).1,
   (insert_error_propagates_atomic _ WormholeEngine.init "c" none none 0
     7 rfl).2⟩

/-- Witness for C7, with the all-zero vector `vZero`, the unit vector
`vOne`, and an insert of an empty eigenvalue list. -/
theorem cosineSimilarity_guard_and_zero_vector_witness :
    vnorm vZero = 0 ∧
    cosineSimilarity vZero vOne = 0 ∧
    vnorm vOne ≠ 0 ∧
    cosineSimilarity vOne vOne =
      dot vOne vOne / (vnorm vOne * vnorm vOne) ∧
    lookupD (applyInsert cexHasher WormholeEngine.init "z"
      (some "w") none 3).connections (jsOr (some "w") "z") [] = [] :=
  ⟨vnorm_vZero,
   cosineSimilarity_guard_and_zero_vector.1 vZero vOne (Or.inl vnorm_vZero),
   by rw [vnorm_vOne]; exact one_ne_zero,
   cosineSimilarity_guard_and_zero_vector.2.1 vOne vOne
     (by rw [vnorm_vOne]; exact one_ne_zero)
     (by rw [vnorm_vOne]; exact one_ne_zero),
   cosineSimilarity_guard_and_zero_vector.2.2 Unit cexHasher
     WormholeEngine.init "z" (some "w") none 3 ⟨"z", []⟩ rfl (by simp)⟩

/-- Witness for C8: strict monotonicity applied at 0 < 1, plus the exact
midpoint value. -/
theorem wormholeStability_logistic_mono_midpoint_witness :
    (0 : ℝ) < 1 ∧ wormholeStability 0 < wormholeStability 1 ∧
    wormholeStability 0.8 = 1 / 2 :=
  ⟨by norm_num,
   wormholeStability_logistic_mono_midpoint.2.1 0 1 (by norm_num),
   wormholeStability_logistic_mono_midpoint.2.2⟩

/-- Witness for C9, on a length-3 input truncated to dimension 2 and a
length-1 input padded to dimension 3. -/
theorem normalizeEigenvalues_spec_witness :
    (normalizeEigenvalues 2 [5, 7, 9]).length = 2 ∧
    (1 : ℕ) < min ([5, 7, 9] : List ℝ).length 2 ∧
    (normalizeEigenvalues 2 [5, 7, 9]).getD 1 0 =
      ([5, 7, 9] : List ℝ).getD 1 0 ∧
    min ([5] : List ℝ).length 3 ≤ 2 ∧ (2 : ℕ) < 3 ∧
    (normalizeEigenvalues 3 [5]).getD 2 0 = 0 ∧
    normalizeEigenvalues 2 [] = List.replicate 2 0 :=
  ⟨(normalizeEigenvalues_spec 2 [5, 7, 9]).1,
   by simp,
   (normalizeEigenvalues_spec 2 [5, 7, 9]).2.1 1 (by simp),
   by simp, by norm_num,
   (normalizeEigenvalues_spec 3 [5]).2.2.1 2 (by simp) (by norm_num),
   (normalizeEigenvalues_spec 2 []).2.2.2⟩

/-- Witness for C10: `cexState2` is reachable; its connection index and
corpus share the key "x", and its stored connection runs from "y" to an
id different from "y". -/
theorem reachable_index_alignment_witness :
    Reachable cexState2 ∧
    mapHas cexState2.connections "x" = mapHas cexState2.souls "x" ∧
    connYX.from'.id = "y" ∧ connYX.to'.id ≠ "y" :=
  ⟨reachable_cexState2,
   (reachable_index_alignment reachable_cexState2).1 "x",
   ((reachable_index_alignment reachable_cexState2).2 ("y", [connYX])
     (by simp [cexState2]) connYX (by simp)).1,
   ((reachable_index_alignment reachable_cexState2).2 ("y", [connYX])
     (by simp [cexState2]) connYX (by simp)).2⟩

end

end SemanticWormholes
